import Mathlib

/-!
Shallow embedding of the brainfuck interpreter in `src/main.rs`
(`mod interpreter`): operation tags, the instruction tree, the validator,
the lexer, the structurer and the fuel-indexed evaluator, together with
theorems checking the specification's claims against these definitions.
-/

set_option maxRecDepth 4000

/-- The flat operation tags (`enum Op` in the source). -/
inductive Op where
  | Increment
  | Decrement
  | ShiftLeft
  | ShiftRight
  | PrintChar
  | GetChar
  | LoopStart
  | LoopEnd
deriving DecidableEq, Repr

/-- The instruction tree (`enum Instruction`): seven variants, where `Loop`
owns an ordered sequence of child instructions. -/
inductive Instruction where
  | Increment
  | Decrement
  | ShiftLeft
  | ShiftRight
  | PrintChar
  | GetChar
  | Loop (body : List Instruction)

/-- The bracket delta of one source character: the `match` inside
`Interpreter::validate` adds 1 on a loop-start, subtracts 1 on a loop-end
and leaves the counter alone otherwise. -/
def charDelta (c : Char) : Int :=
  match c with
  | '[' => 1
  | ']' => -1
  | _ => 0

/-- Running bracket count of a character list (sum of `charDelta`). -/
def bal : List Char → Int
  | [] => 0
  | c :: rest => charDelta c + bal rest

/-- The loop of `Interpreter::validate`: per character, update the signed
counter via `charDelta` and fail eagerly the moment it is negative; at end
of input fail when the counter is nonzero. -/
def validateAux : List Char → Int → Except String Unit
  | [], count => if count ≠ 0 then .error "Invalid source." else .ok ()
  | c :: rest, count =>
    let count' := count + charDelta c
    if count' < 0 then .error "Invalid source." else validateAux rest count'

/-- The function `Interpreter::validate`: scan the whole source once with counter 0. -/
def validate (s : List Char) : Except String Unit := validateAux s 0

/-- The character table of `Interpreter::lex_code`: the eight control
characters map to their tags, everything else to `none`. -/
def charToOp (c : Char) : Option Op :=
  match c with
  | '+' => some .Increment
  | '-' => some .Decrement
  | '<' => some .ShiftLeft
  | '>' => some .ShiftRight
  | '.' => some .PrintChar
  | ',' => some .GetChar
  | '[' => some .LoopStart
  | ']' => some .LoopEnd
  | _ => none

/-- The function `Interpreter::lex_code` on an empty starting `ops` vector: push the tag
of every recognized character, in source order, skipping the rest. -/
def lex_code (s : List Char) : List Op := s.filterMap charToOp

/-- The loop of `Interpreter::build_instruction`: `queue` is the explicit
stack of in-progress sequences, `inst` the current one. `LoopStart` pushes
the current sequence and starts an empty one; `LoopEnd` pops (`None` models
the `unwrap()` panic on an empty stack) and appends a `Loop` node; any other
tag appends its leaf. Returns the final current sequence and the leftover
stack (the source drops the leftover stack without checking it). -/
def buildAux : List Op → List (List Instruction) → List Instruction →
    Option (List Instruction × List (List Instruction))
  | [], queue, inst => some (inst, queue)
  | op :: rest, queue, inst =>
    match op with
    | .Increment => buildAux rest queue (inst ++ [Instruction.Increment])
    | .Decrement => buildAux rest queue (inst ++ [Instruction.Decrement])
    | .ShiftLeft => buildAux rest queue (inst ++ [Instruction.ShiftLeft])
    | .ShiftRight => buildAux rest queue (inst ++ [Instruction.ShiftRight])
    | .PrintChar => buildAux rest queue (inst ++ [Instruction.PrintChar])
    | .GetChar => buildAux rest queue (inst ++ [Instruction.GetChar])
    | .LoopStart => buildAux rest (inst :: queue) []
    | .LoopEnd =>
      match queue with
      | [] => none
      | v :: queue' => buildAux rest queue' (v ++ [Instruction.Loop inst])

/-- The function `Interpreter::build_instruction`: run the structurer pass from an empty
stack and an empty top-level sequence; `none` models the `unwrap()` panic. -/
def build_instruction (ops : List Op) : Option (List Instruction) :=
  (buildAux ops [] []).map Prod.fst

/-- The bytes Rust's `print!("{}", v as char)` writes for a cell value
`v < 256`: code points below 128 are one byte, 128-255 encode to the
two-byte UTF-8 sequence of that code point. -/
def utf8Bytes (v : Nat) : List Nat :=
  if v < 128 then [v] else [192 + v / 64, 128 + v % 64]

/-- Evaluation state: the growable tape `memory` (one `u8` cell per entry),
the cursor `adress` (spelling from the source), the remaining input lines
(each line a list of bytes, as `read_line` returns them) and the bytes
written so far. -/
structure EvalState where
  memory : List Nat
  adress : Nat
  input : List (List Nat)
  output : List Nat
deriving Repr

/-- Outcome of running the evaluator: a final state, one of the three panic
sites of `eval_liner` (tape index out of bounds; `u8` overflow in `+= 1` /
`-= 1`, which panics under the default debug profile; `as_bytes()[0]` on an
exhausted input), or fuel ran out. -/
inductive Res where
  | ok (s : EvalState)
  | oobFault
  | arithFault
  | inputFault
  | timeout

/-- The function `Interpreter::eval_liner`, fuel-indexed: one unit of fuel per executed
instruction, with a loop re-entering itself after each full pass through its
body (the source's `if` + `loop`/`break` shape, extensionally a while loop). -/
def eval_liner : Nat → List Instruction → EvalState → Res
  | _, [], s => .ok s
  | 0, _ :: _, _ => .timeout
  | fuel + 1, i :: rest, s =>
    match i with
    | .Increment =>
      match s.memory[s.adress]? with
      | none => .oobFault
      | some v =>
        if 255 ≤ v then .arithFault
        else eval_liner fuel rest { s with memory := s.memory.set s.adress (v + 1) }
    | .Decrement =>
      match s.memory[s.adress]? with
      | none => .oobFault
      | some v =>
        if v = 0 then .arithFault
        else eval_liner fuel rest { s with memory := s.memory.set s.adress (v - 1) }
    | .ShiftLeft =>
      if s.adress = 0 then
        eval_liner fuel rest { s with memory := 0 :: s.memory }
      else
        eval_liner fuel rest { s with adress := s.adress - 1 }
    | .ShiftRight =>
      if s.adress + 1 = s.memory.length then
        eval_liner fuel rest { s with adress := s.adress + 1, memory := s.memory ++ [0] }
      else
        eval_liner fuel rest { s with adress := s.adress + 1 }
    | .PrintChar =>
      match s.memory[s.adress]? with
      | none => .oobFault
      | some v => eval_liner fuel rest { s with output := s.output ++ utf8Bytes v }
    | .GetChar =>
      match s.input with
      | [] => .inputFault
      | line :: restInput =>
        match line.head? with
        | none => .inputFault
        | some b =>
          match s.memory[s.adress]? with
          | none => .oobFault
          | some _ =>
            eval_liner fuel rest { s with memory := s.memory.set s.adress b, input := restInput }
    | .Loop body =>
      match s.memory[s.adress]? with
      | none => .oobFault
      | some v =>
        if v = 0 then eval_liner fuel rest s
        else
          match eval_liner fuel body s with
          | .ok s' => eval_liner fuel (Instruction.Loop body :: rest) s'
          | r => r

/-- The function `Interpreter::eval_instruction`: run the tree on a fresh tape of one
zero cell with the cursor at 0. -/
def eval_instruction (fuel : Nat) (inst : List Instruction) (input : List (List Nat)) : Res :=
  eval_liner fuel inst ⟨[0], 0, input, []⟩

/-- The `Interpreter` struct: the stored source, the accumulated `ops`
vector and the last built instruction tree. -/
structure Interpreter where
  source : List Char
  ops : List Op
  inst : List Instruction

/-- The function `interpreter::new`: fresh interpreter with empty `ops` and `inst`. -/
def Interpreter.new (s : List Char) : Interpreter := ⟨s, [], []⟩

/-- The method `Interpreter::run`: validate, lex (appending to the stored `ops`),
structure the whole `ops` vector, then evaluate on a fresh tape. `none`
models the `unwrap()` panic inside `build_instruction`; the `Res` carries
the evaluation outcome. -/
def Interpreter.run (it : Interpreter) (fuel : Nat) (input : List (List Nat)) :
    Option (Except String (Interpreter × Res)) :=
  match validate it.source with
  | .error e => some (.error e)
  | .ok () =>
    let ops' := it.ops ++ lex_code it.source
    match buildAux ops' [] [] with
    | none => none
    | some (inst, _) =>
      some (.ok ({ it with ops := ops', inst := inst }, eval_instruction fuel inst input))

/-- Whether a character is one of the two loop-bracket characters. -/
def isBracket (c : Char) : Bool := c = '[' || c = ']'

/-- Modelled from the spec: a "properly nested, fully closed" sequence of
loop-start/loop-end characters — the Dyck grammar S → ε | `[`S`]`S. -/
inductive WellBracketed : List Char → Prop where
  | nil : WellBracketed []
  | node {inner rest : List Char} : WellBracketed inner → WellBracketed rest →
      WellBracketed ('[' :: inner ++ ']' :: rest)

/-- Bracket delta of one operation tag. -/
def opDelta : Op → Int
  | .LoopStart => 1
  | .LoopEnd => -1
  | _ => 0

/-- Bracket delta of an optional operation tag (0 when absent). -/
def optDelta : Option Op → Int
  | none => 0
  | some op => opDelta op

/-- Running bracket count of a tag list (sum of `opDelta`). -/
def balOps : List Op → Int
  | [] => 0
  | op :: rest => opDelta op + balOps rest

/-- A tag sequence whose bracket counts stay nonnegative on every prefix and
end at zero (the shape the Validator guarantees for lexed tags). -/
def OpsBalanced (ops : List Op) : Prop :=
  (∀ p r, ops = p ++ r → 0 ≤ balOps p) ∧ balOps ops = 0

/-- C1 counterexample: with the cell at value 128, a single PrintChar writes
the two bytes 194, 128 (the UTF-8 encoding of code point 128), not the
single raw byte 128. -/
theorem printChar_high_byte_not_single_byte :
    eval_liner 1 [Instruction.PrintChar] ⟨[128], 0, [], []⟩ =
      .ok ⟨[128], 0, [], [194, 128]⟩ ∧ ([194, 128] : List Nat) ≠ [128] :=
  ⟨rfl, by decide⟩

/-- C1 (amended): PrintChar appends the bytes Rust's `print!` writes for the
cell interpreted as a `char`: cell values 0-127 produce exactly that one
byte, values 128-255 are re-encoded as the two-byte UTF-8 sequence of the
corresponding code point. -/
theorem printChar_output_encoding (v : Nat) (inp : List (List Nat)) (out : List Nat)
    (h : v ≤ 255) :
    eval_liner 1 [Instruction.PrintChar] ⟨[v], 0, inp, out⟩ =
      .ok ⟨[v], 0, inp, out ++ (if v < 128 then [v] else [192 + v / 64, 128 + v % 64])⟩ := by
  simp [eval_liner, utf8Bytes]

/-- Witness for `printChar_output_encoding` at cell value 200. -/
theorem printChar_output_encoding_witness :
    eval_liner 1 [Instruction.PrintChar] ⟨[200], 0, [], []⟩ =
      .ok ⟨[200], 0, [], [195, 136]⟩ := by
  simpa using printChar_output_encoding 200 [] [] (by decide)

/-- C2 (code bug): with overflow checks enabled (the default debug profile),
`memory[a] += 1` panics when the cell holds 255 and `memory[a] -= 1` panics
when it holds 0, instead of wrapping: 256 consecutive Increments on a fresh
cell fault at the 256th, and a single Decrement on a fresh cell faults. -/
theorem increment_decrement_overflow_fault :
    eval_liner 256 (List.replicate 256 Instruction.Increment) ⟨[0], 0, [], []⟩ = .arithFault ∧
    eval_liner 1 [Instruction.Decrement] ⟨[0], 0, [], []⟩ = .arithFault :=
  ⟨rfl, rfl⟩

/-- C4: a Loop node has while-loop semantics: with the cell at the cursor
zero it is skipped; with it nonzero the body runs once and the loop node is
re-entered (re-testing the cell); and the program `+[>+<-]` from the initial
state ends with cell 0 = 0, cell 1 = 1. -/
theorem loop_while_semantics :
    (∀ (f : Nat) (body rest : List Instruction) (s : EvalState) (v : Nat),
        s.memory[s.adress]? = some v →
        (v = 0 → eval_liner (f + 1) (Instruction.Loop body :: rest) s = eval_liner f rest s) ∧
        (v ≠ 0 → eval_liner (f + 1) (Instruction.Loop body :: rest) s =
          match eval_liner f body s with
          | .ok s' => eval_liner f (Instruction.Loop body :: rest) s'
          | r => r)) ∧
    eval_liner 100
        [Instruction.Increment,
         Instruction.Loop [.ShiftRight, .Increment, .ShiftLeft, .Decrement]]
        ⟨[0], 0, [], []⟩ = .ok ⟨[0, 1], 0, [], []⟩ := by
  refine ⟨?_, rfl⟩
  intro f body rest s v h
  constructor <;> intro hv <;> simp [eval_liner, h, hv]

/-- Witness for `loop_while_semantics` on a concrete zero cell. -/
theorem loop_while_semantics_witness :
    eval_liner 1 [Instruction.Loop []] ⟨[0], 0, [], []⟩ = eval_liner 0 [] ⟨[0], 0, [], []⟩ :=
  (loop_while_semantics.1 0 [] [] ⟨[0], 0, [], []⟩ 0 rfl).1 rfl

/-- C5: GetChar consumes one whole input line, stores only its first byte at
the cursor (the rest of the line is discarded, not kept for a later
GetChar), and faults fatally when no input line is available. -/
theorem getChar_line_semantics :
    (∀ (f : Nat) (rest : List Instruction) (m : List Nat) (a v b : Nat) (bs : List Nat)
        (inp : List (List Nat)) (out : List Nat),
        m[a]? = some v →
        eval_liner (f + 1) (Instruction.GetChar :: rest) ⟨m, a, (b :: bs) :: inp, out⟩ =
          eval_liner f rest ⟨m.set a b, a, inp, out⟩) ∧
    (∀ (f : Nat) (rest : List Instruction) (s : EvalState),
        s.input = [] → eval_liner (f + 1) (Instruction.GetChar :: rest) s = .inputFault) := by
  constructor
  · intro f rest m a v b bs inp out h
    simp [eval_liner, h]
  · intro f rest s h
    simp [eval_liner, h]

/-- Witness for `getChar_line_semantics`: the line 65, 66, 10 stores 65 and
is consumed whole. -/
theorem getChar_line_semantics_witness :
    eval_liner 1 [Instruction.GetChar] ⟨[0], 0, [[65, 66, 10]], []⟩ =
      eval_liner 0 [] ⟨[0].set 0 65, 0, [], []⟩ :=
  getChar_line_semantics.1 0 [] [0] 0 0 65 [66, 10] [] [] rfl

/-- C9: the lexer recognizes exactly the eight control characters, is a
homomorphism for concatenation (so tags appear in source order), maps a
single character to the tag the table gives it, and is unchanged by
inserting any unrecognized character anywhere. -/
theorem lex_code_control_chars :
    (∀ c : Char, (charToOp c).isSome ↔
        (c = '+' ∨ c = '-' ∨ c = '<' ∨ c = '>' ∨ c = '.' ∨ c = ',' ∨ c = '[' ∨ c = ']')) ∧
    (∀ s1 s2 : List Char, lex_code (s1 ++ s2) = lex_code s1 ++ lex_code s2) ∧
    (∀ c : Char, lex_code [c] = (charToOp c).toList) ∧
    (∀ (s1 s2 : List Char) (c : Char), charToOp c = none →
        lex_code (s1 ++ c :: s2) = lex_code (s1 ++ s2)) := by
  refine ⟨?_, ?_, ?_, ?_⟩
  · intro c
    unfold charToOp
    split <;> simp_all
  · intro s1 s2
    simp [lex_code]
  · intro c
    cases h : charToOp c <;> simp [lex_code, List.filterMap_cons, h]
  · intro s1 s2 c h
    simp [lex_code, List.filterMap_cons, h]

/-- Witness for `lex_code_control_chars`: inserting 'x' between '+' and '-'
leaves the lexed sequence unchanged. -/
theorem lex_code_control_chars_witness :
    lex_code (['+'] ++ 'x' :: ['-']) = lex_code (['+'] ++ ['-']) :=
  lex_code_control_chars.2.2.2 ['+'] ['-'] 'x' rfl

/-- Running `k` ShiftLeft instructions with the cursor at 0 prepends `k`
zero cells and leaves the cursor at 0. -/
theorem shiftLeft_run (k : Nat) (m : List Nat) (inp : List (List Nat)) (out : List Nat) :
    eval_liner k (List.replicate k Instruction.ShiftLeft) ⟨m, 0, inp, out⟩ =
      .ok ⟨List.replicate k 0 ++ m, 0, inp, out⟩ := by
  induction k generalizing m with
  | zero => simp [eval_liner]
  | succ k ih =>
    rw [List.replicate_succ]
    show eval_liner (k + 1) (Instruction.ShiftLeft :: List.replicate k Instruction.ShiftLeft) _ = _
    simp only [eval_liner, if_pos rfl]
    rw [ih (0 :: m), List.replicate_succ']
    simp [List.append_assoc]

/-- Running `k` ShiftRight instructions with the cursor on the last cell
appends `k` zero cells and moves the cursor `k` cells right. -/
theorem shiftRight_run (k : Nat) (m : List Nat) (a : Nat) (inp : List (List Nat))
    (out : List Nat) (h : a + 1 = m.length) :
    eval_liner k (List.replicate k Instruction.ShiftRight) ⟨m, a, inp, out⟩ =
      .ok ⟨m ++ List.replicate k 0, a + k, inp, out⟩ := by
  induction k generalizing m a with
  | zero => simp [eval_liner]
  | succ k ih =>
    rw [List.replicate_succ]
    show eval_liner (k + 1) (Instruction.ShiftRight :: List.replicate k Instruction.ShiftRight) _ = _
    simp only [eval_liner, if_pos h]
    rw [ih (m ++ [0]) (a + 1) (by simp [h])]
    rw [List.replicate_succ]
    simp [List.append_assoc]
    omega

/-- C6: from the initial state (one zero cell, cursor 0), `k` ShiftLefts
yield the tape of `k + 1` zero cells with the cursor at 0, and `k`
ShiftRights yield the tape of `k + 1` zero cells with the cursor at `k`. -/
theorem shift_growth (k : Nat) (inp : List (List Nat)) (out : List Nat) :
    (eval_liner k (List.replicate k Instruction.ShiftLeft) ⟨[0], 0, inp, out⟩ =
        .ok ⟨List.replicate (k + 1) 0, 0, inp, out⟩ ∧
      (List.replicate (k + 1) 0).length = k + 1) ∧
    (eval_liner k (List.replicate k Instruction.ShiftRight) ⟨[0], 0, inp, out⟩ =
        .ok ⟨List.replicate (k + 1) 0, k, inp, out⟩ ∧
      (List.replicate (k + 1) 0).length = k + 1) := by
  refine ⟨⟨?_, by simp⟩, ⟨?_, by simp⟩⟩
  · rw [shiftLeft_run k [0] inp out, List.replicate_succ']
  · rw [shiftRight_run k [0] 0 inp out (by simp)]
    simp [List.replicate_succ]

/-- C7: whenever the cursor is a valid index into the tape, evaluation never
performs an out-of-bounds cell access (it cannot end in `oobFault`), and any
final state it reaches has the cursor valid again — every evaluator
operation preserves the invariant. -/
theorem cursor_in_bounds (f : Nat) :
    ∀ (l : List Instruction) (s : EvalState), s.adress < s.memory.length →
      eval_liner f l s ≠ .oobFault ∧
      ∀ s', eval_liner f l s = .ok s' → s'.adress < s'.memory.length := by
  induction f with
  | zero =>
    intro l s hs
    cases l with
    | nil =>
      refine ⟨by simp [eval_liner], fun s' h => ?_⟩
      have hss : s = s' := Res.ok.inj h
      exact hss ▸ hs
    | cons i rest =>
      exact ⟨by simp [eval_liner], fun s' h => by simp [eval_liner] at h⟩
  | succ f ih =>
    intro l s hs
    cases l with
    | nil =>
      refine ⟨by simp [eval_liner], fun s' h => ?_⟩
      have hss : s = s' := Res.ok.inj h
      exact hss ▸ hs
    | cons i rest =>
      obtain ⟨v, hv⟩ : ∃ v, s.memory[s.adress]? = some v :=
        ⟨s.memory[s.adress], List.getElem?_eq_getElem hs⟩
      cases i with
      | Increment =>
        by_cases h255 : 255 ≤ v
        · simp [eval_liner, hv, h255]
        · simp only [eval_liner, hv, if_neg h255]
          exact ih rest _ (by simpa using hs)
      | Decrement =>
        by_cases h0 : v = 0
        · simp [eval_liner, hv, h0]
        · simp only [eval_liner, hv, if_neg h0]
          exact ih rest _ (by simpa using hs)
      | ShiftLeft =>
        by_cases h0 : s.adress = 0
        · simp only [eval_liner, if_pos h0]
          exact ih rest _ (by simp; omega)
        · simp only [eval_liner, if_neg h0]
          exact ih rest _ (by simp; omega)
      | ShiftRight =>
        by_cases hlen : s.adress + 1 = s.memory.length
        · simp only [eval_liner, if_pos hlen]
          exact ih rest _ (by simp; omega)
        · simp only [eval_liner, if_neg hlen]
          exact ih rest _ (by simp; omega)
      | PrintChar =>
        simp only [eval_liner, hv]
        exact ih rest _ (by simpa using hs)
      | GetChar =>
        cases hinp : s.input with
        | nil => simp [eval_liner, hinp]
        | cons line restInput =>
          cases hline : line.head? with
          | none => simp [eval_liner, hinp, hline]
          | some b =>
            simp only [eval_liner, hinp, hline, hv]
            exact ih rest _ (by simpa using hs)
      | Loop body =>
        simp only [eval_liner, hv]
        by_cases hz : v = 0
        · simp only [if_pos hz]
          exact ih rest s hs
        · simp only [if_neg hz]
          obtain ⟨hb1, hb2⟩ := ih body s hs
          rcases hres : eval_liner f body s with s' | _ | _ | _ | _
          · exact ih (Instruction.Loop body :: rest) s' (hb2 s' hres)
          · exact absurd hres hb1
          · exact ⟨nofun, nofun⟩
          · exact ⟨nofun, nofun⟩
          · exact ⟨nofun, nofun⟩

/-- Witness for `cursor_in_bounds` at a concrete in-bounds start state. -/
theorem cursor_in_bounds_witness :
    eval_liner 1 [Instruction.ShiftRight] ⟨[0], 0, [], []⟩ ≠ .oobFault :=
  (cursor_in_bounds 1 [Instruction.ShiftRight] ⟨[0], 0, [], []⟩ (by decide)).1

/-- The count `bal` is additive over append. -/
theorem bal_append (p q : List Char) : bal (p ++ q) = bal p + bal q := by
  induction p with
  | nil => simp [bal]
  | cons c t ih => simp [bal, ih]; ring

/-- The count `balOps` is additive over append. -/
theorem balOps_append (p q : List Op) : balOps (p ++ q) = balOps p + balOps q := by
  induction p with
  | nil => simp [balOps]
  | cons op t ih => simp [balOps, ih]; ring

/-- A character that is not a bracket has delta 0. -/
theorem charDelta_eq_zero_of_not_bracket (c : Char) (h : isBracket c = false) :
    charDelta c = 0 := by
  unfold charDelta
  split
  · simp [isBracket] at h
  · simp [isBracket] at h
  · rfl

/-- The predicate `isBracket` decides membership in the bracket pair. -/
theorem isBracket_iff (c : Char) : isBracket c = true ↔ c = '[' ∨ c = ']' := by
  simp [isBracket]

/-- Projecting away non-bracket characters preserves the bracket count. -/
theorem bal_filter (s : List Char) : bal (s.filter isBracket) = bal s := by
  induction s with
  | nil => rfl
  | cons c t ih =>
    by_cases h : isBracket c
    · simp [List.filter_cons, h, bal, ih]
    · simp only [List.filter_cons, Bool.not_eq_true] at *
      simp [h, bal, ih, charDelta_eq_zero_of_not_bracket c h]

/-- The tag a character lexes to carries the same bracket delta as the
character itself. -/
theorem optDelta_charToOp (c : Char) : optDelta (charToOp c) = charDelta c := by
  unfold charToOp
  split <;> simp_all [optDelta, opDelta, charDelta]

/-- Lexing preserves the bracket count. -/
theorem balOps_lex_code (s : List Char) : balOps (lex_code s) = bal s := by
  induction s with
  | nil => rfl
  | cons c t ih =>
    have h := optDelta_charToOp c
    cases hc : charToOp c with
    | none =>
      rw [hc] at h
      simp only [lex_code, List.filterMap_cons, hc]
      rw [bal, ← h]
      simpa [optDelta, lex_code] using ih
    | some op =>
      rw [hc] at h
      simp only [lex_code, List.filterMap_cons, hc]
      rw [balOps, bal, ← h]
      simpa [optDelta, lex_code] using ih

/-- A split of a filtered list lifts to a split of the original list. -/
theorem filter_eq_append_split (p : Char → Bool) :
    ∀ (s p' q' : List Char), s.filter p = p' ++ q' →
      ∃ u v, s = u ++ v ∧ u.filter p = p' ∧ v.filter p = q' := by
  intro s
  induction s with
  | nil =>
    intro p' q' h
    simp only [List.filter_nil] at h
    obtain ⟨h1, h2⟩ := List.append_eq_nil.mp h.symm
    exact ⟨[], [], rfl, by simp [h1], by simp [h2]⟩
  | cons a t ih =>
    intro p' q' h
    by_cases hp : p a
    · rw [List.filter_cons_of_pos hp] at h
      cases p' with
      | nil =>
        exact ⟨[], a :: t, rfl, rfl, by rw [List.filter_cons_of_pos hp]; exact h⟩
      | cons b p'' =>
        simp only [List.cons_append] at h
        injection h with hb ht
        subst hb
        obtain ⟨u, v, rfl, hu, hv⟩ := ih p'' q' ht
        exact ⟨a :: u, v, rfl, by simp [List.filter_cons_of_pos hp, hu], hv⟩
    · rw [List.filter_cons_of_neg hp] at h
      obtain ⟨u, v, rfl, hu, hv⟩ := ih p' q' h
      exact ⟨a :: u, v, rfl, by simp [List.filter_cons_of_neg hp, hu], hv⟩

/-- A split of a filterMapped list lifts to a split of the original list. -/
theorem filterMap_eq_append_split {α β : Type} (f : α → Option β) :
    ∀ (s : List α) (p' q' : List β), s.filterMap f = p' ++ q' →
      ∃ u v, s = u ++ v ∧ u.filterMap f = p' ∧ v.filterMap f = q' := by
  intro s
  induction s with
  | nil =>
    intro p' q' h
    simp only [List.filterMap_nil] at h
    obtain ⟨h1, h2⟩ := List.append_eq_nil.mp h.symm
    exact ⟨[], [], rfl, by simp [h1], by simp [h2]⟩
  | cons a t ih =>
    intro p' q' h
    cases hfa : f a with
    | none =>
      rw [List.filterMap_cons_none hfa] at h
      obtain ⟨u, v, rfl, hu, hv⟩ := ih p' q' h
      exact ⟨a :: u, v, rfl, by simp [List.filterMap_cons_none hfa, hu], hv⟩
    | some b =>
      rw [List.filterMap_cons_some hfa] at h
      cases p' with
      | nil =>
        exact ⟨[], a :: t, rfl, rfl, by rw [List.filterMap_cons_some hfa]; exact h⟩
      | cons b' p'' =>
        simp only [List.cons_append] at h
        injection h with hb ht
        subst hb
        obtain ⟨u, v, rfl, hu, hv⟩ := ih p'' q' ht
        exact ⟨a :: u, v, rfl, by simp [List.filterMap_cons_some hfa, hu], hv⟩

/-- The validator loop accepts from counter `k ≥ 0` exactly when every
prefix keeps `k` plus its bracket count nonnegative and the whole list
brings it back to zero. -/
theorem validateAux_iff :
    ∀ (s : List Char) (k : Int), 0 ≤ k →
      (validateAux s k = .ok () ↔
        (∀ p q, s = p ++ q → 0 ≤ k + bal p) ∧ k + bal s = 0) := by
  intro s
  induction s with
  | nil =>
    intro k hk
    constructor
    · intro h
      have hk0 : k = 0 := by
        by_contra hne
        simp [validateAux, hne] at h
      subst hk0
      exact ⟨fun p q hpq => by
        obtain ⟨h1, _⟩ := List.append_eq_nil.mp hpq.symm
        simp [h1, bal], by simp [bal]⟩
    · rintro ⟨_, htot⟩
      have : k = 0 := by rw [bal] at htot; omega
      simp [validateAux, this]
  | cons c t ih =>
    intro k hk
    by_cases hneg : k + charDelta c < 0
    · constructor
      · intro h
        simp [validateAux, hneg] at h
      · rintro ⟨hpre, _⟩
        have := hpre [c] t rfl
        rw [bal, bal] at this
        omega
    · have hstep : validateAux (c :: t) k = validateAux t (k + charDelta c) := by
        simp [validateAux, hneg]
      rw [hstep, ih (k + charDelta c) (by omega)]
      constructor
      · rintro ⟨hpre, htot⟩
        refine ⟨fun p q hpq => ?_, by rw [bal]; omega⟩
        cases p with
        | nil => simpa [bal] using hk
        | cons c' p' =>
          simp only [List.cons_append] at hpq
          injection hpq with hc hp
          subst hc
          have := hpre p' q hp
          rw [bal]
          omega
      · rintro ⟨hpre, htot⟩
        refine ⟨fun p q hpq => ?_, by rw [bal] at htot; omega⟩
        have := hpre (c :: p) q (by simp [hpq])
        rw [bal] at this
        omega

/-- Inserting an adjacent `[]` pair anywhere in a well-bracketed word keeps
it well-bracketed. -/
theorem wellBracketed_insert_pair :
    ∀ {w : List Char}, WellBracketed w → ∀ u v, w = u ++ v →
      WellBracketed (u ++ '[' :: ']' :: v) := by
  intro w h
  induction h with
  | nil =>
    intro u v huv
    obtain ⟨hu, hv⟩ := List.append_eq_nil.mp huv.symm
    subst hu; subst hv
    exact .node .nil .nil
  | @node inner rest hi hr ihi ihr =>
    intro u v huv
    cases u with
    | nil =>
      simp only [List.nil_append] at huv ⊢
      subst huv
      exact .node .nil (.node hi hr)
    | cons c u' =>
      simp only [List.cons_append] at huv
      injection huv with hc hrest
      subst hc
      rcases List.append_eq_append_iff.mp hrest.symm with ⟨a', ha1, ha2⟩ | ⟨c', hc1, hc2⟩
      · -- inner = u' ++ a', v = a' ++ ']' :: rest
        subst ha2; subst ha1
        have h1 : WellBracketed (u' ++ '[' :: ']' :: a') := ihi u' a' rfl
        have goal := WellBracketed.node h1 hr
        simpa [List.cons_append, List.append_assoc] using goal
      · -- u' = inner ++ c', ']' :: rest = c' ++ v
        cases c' with
        | nil =>
          simp only [List.append_nil] at hc1
          simp only [List.nil_append] at hc2
          subst hc1
          subst hc2
          have h1 : WellBracketed (u' ++ '[' :: ']' :: []) := ihi u' [] (by simp)
          have goal := WellBracketed.node h1 hr
          simpa [List.cons_append, List.append_assoc] using goal
        | cons d c'' =>
          simp only [List.cons_append] at hc2
          injection hc2 with hd hrest2
          subst hd
          subst hc1
          have h1 : WellBracketed (c'' ++ '[' :: ']' :: v) := ihr c'' v hrest2
          have goal := WellBracketed.node hi h1
          simpa [List.cons_append, List.append_assoc] using goal

/-- A well-bracketed word has bracket count zero and no prefix dips below
zero. -/
theorem wellBracketed_counts :
    ∀ {w : List Char}, WellBracketed w →
      bal w = 0 ∧ ∀ p q, w = p ++ q → 0 ≤ bal p := by
  intro w h
  induction h with
  | nil =>
    refine ⟨rfl, fun p q hpq => ?_⟩
    obtain ⟨h1, _⟩ := List.append_eq_nil.mp hpq.symm
    simp [h1, bal]
  | @node inner rest hi hr ihi ihr =>
    obtain ⟨hib, hip⟩ := ihi
    obtain ⟨hrb, hrp⟩ := ihr
    constructor
    · rw [show ('[' :: inner ++ ']' :: rest : List Char) = '[' :: (inner ++ ']' :: rest) by simp]
      rw [bal, bal_append, bal, hib, hrb]
      simp [charDelta]
    · intro p q hpq
      cases p with
      | nil => simp [bal]
      | cons c p' =>
        simp only [List.cons_append] at hpq
        injection hpq with hc hrest
        subst hc
        rcases List.append_eq_append_iff.mp hrest.symm with ⟨a', ha1, _⟩ | ⟨c', hc1, hc2⟩
        · -- inner = p' ++ a'
          have := hip p' a' ha1
          rw [bal]
          simp [charDelta]
          omega
        · -- p' = inner ++ c', ']' :: rest = c' ++ q
          cases c' with
          | nil =>
            simp only [List.append_nil] at hc1
            subst hc1
            rw [bal]
            simp [charDelta, hib]
          | cons d c'' =>
            simp only [List.cons_append] at hc2
            injection hc2 with hd hrest2
            subst hd
            subst hc1
            have := hrp c'' q hrest2
            rw [bal, bal_append, bal]
            simp [charDelta, hib]
            omega

/-- Splitting a list at its first `]`. -/
theorem first_close_split :
    ∀ (s : List Char), ']' ∈ s → ∃ as bs, s = as ++ ']' :: bs ∧ ']' ∉ as := by
  intro s
  induction s with
  | nil => intro h; simp at h
  | cons c t ih =>
    intro h
    by_cases hc : c = ']'
    · subst hc
      exact ⟨[], t, rfl, by simp⟩
    · have hmem : ']' ∈ t := by
        rcases List.mem_cons.mp h with h1 | h1
        · exact absurd h1.symm hc
        · exact h1
      obtain ⟨as, bs, rfl, hnotin⟩ := ih hmem
      exact ⟨c :: as, bs, rfl, by simp [hnotin]; exact fun h' => hc h'.symm⟩

/-- A list of only `[` characters has bracket count equal to its length. -/
theorem bal_all_open (s : List Char) (h : ∀ c ∈ s, c = '[') : bal s = s.length := by
  induction s with
  | nil => rfl
  | cons c t ih =>
    have hc : c = '[' := h c (by simp)
    subst hc
    rw [bal, ih (fun c hc => h c (by simp [hc]))]
    simp [charDelta]
    ring

/-- A bracket-only word whose prefixes never dip below zero and whose total
count is zero is well-bracketed. -/
theorem counts_wellBracketed :
    ∀ (n : Nat) (s : List Char), s.length ≤ n →
      (∀ c ∈ s, c = '[' ∨ c = ']') →
      (∀ p q, s = p ++ q → 0 ≤ bal p) → bal s = 0 →
      WellBracketed s := by
  intro n
  induction n with
  | zero =>
    intro s hlen _ _ _
    have : s = [] := List.length_eq_zero.mp (Nat.le_zero.mp hlen)
    subst this
    exact .nil
  | succ n ih =>
    intro s hlen hbr hpre htot
    cases hs : s with
    | nil => exact .nil
    | cons c t =>
      subst hs
      -- the head must be '['
      have hc : c = '[' := by
        rcases hbr c (by simp) with h1 | h1
        · exact h1
        · exfalso
          have := hpre [c] t rfl
          rw [bal, bal, h1] at this
          simp [charDelta] at this
      subst hc
      -- there must be a ']' somewhere
      have hmem : ']' ∈ '[' :: t := by
        by_contra hno
        have hall : ∀ d ∈ '[' :: t, d = '[' := by
          intro d hd
          rcases hbr d hd with h1 | h1
          · exact h1
          · exact absurd (h1 ▸ hd) hno
        have := bal_all_open _ hall
        rw [htot] at this
        simp only [List.length_cons] at this
        omega
      obtain ⟨as, bs, heq, hnotin⟩ := first_close_split _ hmem
      -- as is nonempty and ends in '['
      have has_ne : as ≠ [] := by
        intro h0
        rw [h0] at heq
        simp only [List.nil_append] at heq
        injection heq with h1 _
        exact absurd h1.symm (by decide)
      rcases List.eq_nil_or_concat as with h0 | ⟨as', a, hconcat⟩
      · exact absurd h0 has_ne
      have hconcat' : as = as' ++ [a] := by simpa [List.concat_eq_append] using hconcat
      have ha : a = '[' := by
        have hmema : a ∈ '[' :: t := by rw [heq, hconcat']; simp
        rcases hbr a hmema with h1 | h1
        · exact h1
        · exfalso
          exact hnotin (by rw [hconcat', h1]; simp)
      subst ha
      have heq2 : ('[' :: t : List Char) = as' ++ '[' :: ']' :: bs := by
        rw [heq, hconcat']
        simp [List.append_assoc]
      -- the word with the adjacent pair removed
      have hbr0 : ∀ c ∈ as' ++ bs, c = '[' ∨ c = ']' := by
        intro c hc
        apply hbr
        rw [heq2]
        rcases List.mem_append.mp hc with h1 | h1
        · exact List.mem_append.mpr (Or.inl h1)
        · exact List.mem_append.mpr (Or.inr (by simp [h1]))
      have hpre0 : ∀ p q, as' ++ bs = p ++ q → 0 ≤ bal p := by
        intro p q hpq
        rcases List.append_eq_append_iff.mp hpq with ⟨a', ha1, ha2⟩ | ⟨c', hc1, hc2⟩
        · -- p = as' ++ a', bs = a' ++ q
          subst ha1
          have := hpre (as' ++ '[' :: ']' :: a') q
            (by rw [heq2, ha2]; simp [List.append_assoc])
          rw [bal_append] at this ⊢
          rw [bal, bal] at this
          simp [charDelta] at this
          omega
        · -- as' = p ++ c', q = c' ++ bs : p is a prefix of the full word
          exact hpre p (c' ++ '[' :: ']' :: bs) (by rw [heq2, hc1]; simp [List.append_assoc])
      have htot0 : bal (as' ++ bs) = 0 := by
        have : bal ('[' :: t) = bal (as' ++ bs) := by
          rw [heq2, bal_append, bal_append, bal, bal]
          simp [charDelta]
        rw [← this, htot]
      have hlen0 : (as' ++ bs).length ≤ n := by
        have h1 : ('[' :: t).length = (as' ++ bs).length + 2 := by
          rw [heq2]
          simp
          omega
        have h2 : ('[' :: t).length ≤ n + 1 := hlen
        omega
      have hwb0 : WellBracketed (as' ++ bs) := ih _ hlen0 hbr0 hpre0 htot0
      have := wellBracketed_insert_pair hwb0 as' bs rfl
      rw [heq2]
      exact this

/-- C3: the Validator accepts a source exactly when its loop-bracket
characters form a properly nested, fully closed sequence; in particular any
dip of the running counter below zero, or a nonzero final counter, is a
rejection. -/
theorem validate_accepts_iff_nested (s : List Char) :
    validate s = .ok () ↔ WellBracketed (s.filter isBracket) := by
  rw [validate, validateAux_iff s 0 le_rfl]
  simp only [zero_add]
  constructor
  · rintro ⟨hpre, htot⟩
    apply counts_wellBracketed (s.filter isBracket).length _ le_rfl
    · intro c hc
      exact (isBracket_iff c).mp (List.of_mem_filter hc)
    · intro p q hpq
      obtain ⟨u, v, rfl, hu, hv⟩ := filter_eq_append_split isBracket s p q hpq
      rw [← hu, bal_filter]
      exact hpre u v rfl
    · rw [bal_filter]
      exact htot
  · intro hwb
    obtain ⟨htot, hpre⟩ := wellBracketed_counts hwb
    constructor
    · intro p q hpq
      subst hpq
      have := hpre (p.filter isBracket) (q.filter isBracket) (List.filter_append p q)
      rwa [bal_filter] at this
    · rw [← bal_filter]
      exact htot

/-- The structurer pass succeeds whenever no prefix of the tags closes more
loops than the stack depth plus the opens before it, and the final stack
depth is the starting depth plus the total bracket count. -/
theorem buildAux_total :
    ∀ (ops : List Op) (queue : List (List Instruction)) (inst : List Instruction),
      (∀ p r, ops = p ++ r → 0 ≤ (queue.length : Int) + balOps p) →
      ∃ inst' queue', buildAux ops queue inst = some (inst', queue') ∧
        (queue'.length : Int) = queue.length + balOps ops := by
  intro ops
  induction ops with
  | nil =>
    intro queue inst _
    exact ⟨inst, queue, rfl, by simp [balOps]⟩
  | cons op rest ih =>
    intro queue inst h
    have hstep : ∀ p r, rest = p ++ r →
        0 ≤ (queue.length : Int) + opDelta op + balOps p := by
      intro p r hpr
      have := h (op :: p) r (by rw [hpr]; rfl)
      rw [balOps] at this
      omega
    cases op with
    | LoopStart =>
      obtain ⟨i', q', heq, hlen⟩ := ih (inst :: queue) []
        (fun p r hpr => by have := hstep p r hpr; simp [opDelta] at this ⊢; omega)
      refine ⟨i', q', by simpa [buildAux] using heq, ?_⟩
      rw [balOps]
      simp [opDelta] at hlen ⊢
      omega
    | LoopEnd =>
      have hq1 : 1 ≤ (queue.length : Int) := by
        have := h [Op.LoopEnd] rest rfl
        simp [balOps, opDelta] at this
        omega
      cases queue with
      | nil => simp at hq1
      | cons v q0 =>
        obtain ⟨i', q', heq, hlen⟩ := ih q0 (v ++ [Instruction.Loop inst])
          (fun p r hpr => by have := hstep p r hpr; simp [opDelta] at this ⊢; omega)
        refine ⟨i', q', by simpa [buildAux] using heq, ?_⟩
        rw [balOps]
        simp [opDelta] at hlen ⊢
        omega
    | Increment =>
      obtain ⟨i', q', heq, hlen⟩ := ih queue (inst ++ [Instruction.Increment])
        (fun p r hpr => by have := hstep p r hpr; simp [opDelta] at this ⊢; omega)
      refine ⟨i', q', by simpa [buildAux] using heq, ?_⟩
      rw [balOps]
      simp [opDelta] at hlen ⊢
      omega
    | Decrement =>
      obtain ⟨i', q', heq, hlen⟩ := ih queue (inst ++ [Instruction.Decrement])
        (fun p r hpr => by have := hstep p r hpr; simp [opDelta] at this ⊢; omega)
      refine ⟨i', q', by simpa [buildAux] using heq, ?_⟩
      rw [balOps]
      simp [opDelta] at hlen ⊢
      omega
    | ShiftLeft =>
      obtain ⟨i', q', heq, hlen⟩ := ih queue (inst ++ [Instruction.ShiftLeft])
        (fun p r hpr => by have := hstep p r hpr; simp [opDelta] at this ⊢; omega)
      refine ⟨i', q', by simpa [buildAux] using heq, ?_⟩
      rw [balOps]
      simp [opDelta] at hlen ⊢
      omega
    | ShiftRight =>
      obtain ⟨i', q', heq, hlen⟩ := ih queue (inst ++ [Instruction.ShiftRight])
        (fun p r hpr => by have := hstep p r hpr; simp [opDelta] at this ⊢; omega)
      refine ⟨i', q', by simpa [buildAux] using heq, ?_⟩
      rw [balOps]
      simp [opDelta] at hlen ⊢
      omega
    | PrintChar =>
      obtain ⟨i', q', heq, hlen⟩ := ih queue (inst ++ [Instruction.PrintChar])
        (fun p r hpr => by have := hstep p r hpr; simp [opDelta] at this ⊢; omega)
      refine ⟨i', q', by simpa [buildAux] using heq, ?_⟩
      rw [balOps]
      simp [opDelta] at hlen ⊢
      omega
    | GetChar =>
      obtain ⟨i', q', heq, hlen⟩ := ih queue (inst ++ [Instruction.GetChar])
        (fun p r hpr => by have := hstep p r hpr; simp [opDelta] at this ⊢; omega)
      refine ⟨i', q', by simpa [buildAux] using heq, ?_⟩
      rw [balOps]
      simp [opDelta] at hlen ⊢
      omega

/-- A validated source lexes to a balanced tag sequence. -/
theorem validate_opsBalanced (s : List Char) (h : validate s = .ok ()) :
    OpsBalanced (lex_code s) := by
  rw [validate, validateAux_iff s 0 le_rfl] at h
  simp only [zero_add] at h
  obtain ⟨hpre, htot⟩ := h
  constructor
  · intro p r hpr
    obtain ⟨u, v, rfl, hu, hv⟩ := filterMap_eq_append_split charToOp s p r hpr
    rw [← hu]
    show 0 ≤ balOps (lex_code u)
    rw [balOps_lex_code]
    exact hpre u v rfl
  · rw [balOps_lex_code]
    exact htot

/-- The structurer pass on a balanced tag sequence succeeds from the empty
stack and finishes with the stack empty. -/
theorem buildAux_closed (ops : List Op) (h : OpsBalanced ops) :
    ∃ inst, buildAux ops [] [] = some (inst, []) := by
  obtain ⟨hpre, htot⟩ := h
  obtain ⟨i', q', heq, hlen⟩ := buildAux_total ops [] []
    (fun p r hpr => by simpa using hpre p r hpr)
  have hq : q' = [] := by
    rw [htot] at hlen
    simp at hlen
    exact hlen
  subst hq
  exact ⟨i', heq⟩

/-- Concatenating two balanced tag sequences stays balanced. -/
theorem opsBalanced_append (A B : List Op) (hA : OpsBalanced A) (hB : OpsBalanced B) :
    OpsBalanced (A ++ B) := by
  obtain ⟨hpA, htA⟩ := hA
  obtain ⟨hpB, htB⟩ := hB
  constructor
  · intro p r hpr
    rcases List.append_eq_append_iff.mp hpr with ⟨a', ha1, ha2⟩ | ⟨c', hc1, hc2⟩
    · subst ha1
      rw [balOps_append, htA]
      have := hpB a' r ha2
      omega
    · exact hpA p c' hc1
  · rw [balOps_append, htA, htB]
    rfl

/-- C8: for any source accepted by the Validator, the Structurer's single
pass never pops its stack when the stack is empty (the pass completes
without the unwrap failing) and the stack is empty when the pass ends. -/
theorem structurer_stack_safe (s : List Char) (h : validate s = .ok ()) :
    ∃ inst, buildAux (lex_code s) [] [] = some (inst, []) :=
  buildAux_closed _ (validate_opsBalanced s h)

/-- Witness for `structurer_stack_safe` on the source `[+]`. -/
theorem structurer_stack_safe_witness :
    ∃ inst, buildAux (lex_code ['[', '+', ']']) [] [] = some (inst, []) :=
  structurer_stack_safe ['[', '+', ']'] rfl

/-- C10: a second `run` on the same interpreter is not a repeat of the
first: lexing appends to the stored tag list, so the second run structures
and evaluates the tag sequence of the source concatenated with itself. -/
theorem run_twice_doubles_program (s : List Char) (fuel : Nat)
    (input : List (List Nat)) (h : validate s = .ok ()) :
    ∃ it1 r1 it2 r2,
      (Interpreter.new s).run fuel input = some (.ok (it1, r1)) ∧
      it1.ops = lex_code s ∧
      it1.run fuel input = some (.ok (it2, r2)) ∧
      it2.ops = lex_code (s ++ s) ∧
      buildAux (lex_code (s ++ s)) [] [] = some (it2.inst, []) ∧
      r2 = eval_instruction fuel it2.inst input := by
  have hA := validate_opsBalanced s h
  obtain ⟨inst1, h1⟩ := buildAux_closed _ hA
  obtain ⟨inst2, h2⟩ := buildAux_closed _ (opsBalanced_append _ _ hA hA)
  have hlex2 : lex_code (s ++ s) = lex_code s ++ lex_code s := by
    simp [lex_code]
  refine ⟨⟨s, lex_code s, inst1⟩, eval_instruction fuel inst1 input,
          ⟨s, lex_code s ++ lex_code s, inst2⟩, eval_instruction fuel inst2 input,
          ?_, rfl, ?_, ?_, ?_, rfl⟩
  · simp [Interpreter.new, Interpreter.run, h, h1]
  · simp [Interpreter.run, h, h2]
  · exact hlex2.symm
  · rw [hlex2]
    exact h2

/-- Witness for `run_twice_doubles_program` on the source `+.`. -/
theorem run_twice_doubles_program_witness :
    ∃ it1 r1 it2 r2,
      (Interpreter.new ['+', '.']).run 10 [] = some (.ok (it1, r1)) ∧
      it1.ops = lex_code ['+', '.'] ∧
      it1.run 10 [] = some (.ok (it2, r2)) ∧
      it2.ops = lex_code (['+', '.'] ++ ['+', '.']) ∧
      buildAux (lex_code (['+', '.'] ++ ['+', '.'])) [] [] = some (it2.inst, []) ∧
      r2 = eval_instruction 10 it2.inst [] :=
  run_twice_doubles_program ['+', '.'] 10 [] rfl
